import Mathlib

/-!
Verification development for the pearce emulator core
(src/pearce/emulator/emu.py and src/pearce/inference/runMCMC.py).

The Python code is shallowly embedded: pure numerical routines become Lean
functions, numpy float values that can be NaN or negative infinity are
modelled by the inductive type PyF with IEEE comparison semantics for the
operations the code performs, and matrices become Mathlib matrices over the
reals.
-/

/-- Model of a Python float value as used by the prior and likelihood code:
either NaN, negative infinity, or a finite value (modelled as a rational so
that every comparison the code performs is decidable). -/
inductive PyF where
  | nan : PyF
  | neginf : PyF
  | fin : ℚ → PyF
deriving DecidableEq, Repr

/-- Embeds numpy.isnan on the modelled values. -/
def PyF.isnan : PyF → Bool
  | PyF.nan => true
  | _ => false

/-- IEEE strict less-than on the modelled values: every comparison involving
NaN is false, negative infinity is below every finite value. -/
def PyF.lt : PyF → PyF → Bool
  | PyF.nan, _ => false
  | _, PyF.nan => false
  | PyF.neginf, PyF.neginf => false
  | PyF.neginf, PyF.fin _ => true
  | PyF.fin _, PyF.neginf => false
  | PyF.fin a, PyF.fin b => a < b

/-- Embeds numpy.isfinite on the modelled values. -/
def PyF.isfinite : PyF → Bool
  | PyF.fin _ => true
  | _ => false

/-- IEEE addition restricted to the values the code adds (a finite prior value
plus a likelihood value, or cases involving the infinities). -/
def PyF.add : PyF → PyF → PyF
  | PyF.nan, _ => PyF.nan
  | _, PyF.nan => PyF.nan
  | PyF.neginf, _ => PyF.neginf
  | _, PyF.neginf => PyF.neginf
  | PyF.fin a, PyF.fin b => PyF.fin (a + b)

/-- Embeds lnprior of src/pearce/emulator/emu.py (lines 767-778): returns 0
if every sampled component lies strictly between its parameter bounds
(the chained Python comparison low < t < high, false on NaN), and negative
infinity otherwise.  The parameters are zipped with theta exactly as izip
does, truncating to the shorter list. -/
def lnprior_emu (ps : List (ℚ × ℚ)) (theta : List PyF) : PyF :=
  if (ps.zip theta).all
      (fun pt => PyF.lt (PyF.fin pt.1.1) pt.2 && PyF.lt pt.2 (PyF.fin pt.1.2)) then
    PyF.fin 0
  else PyF.neginf

/-- Embeds lnprior of src/pearce/inference/runMCMC.py (lines 16-33): walks
the zipped bounds and proposal, returning negative infinity as soon as a
component is NaN, below its lower bound, or above its upper bound, and 0 if
the loop finishes. -/
def lnprior_run : List (ℚ × ℚ) → List PyF → PyF
  | [], _ => PyF.fin 0
  | _ :: _, [] => PyF.fin 0
  | (low, high) :: bs, t :: ts =>
    if t.isnan || PyF.lt t (PyF.fin low) || PyF.lt (PyF.fin high) t then PyF.neginf
    else lnprior_run bs ts

/-- Embeds lnprob of src/pearce/emulator/emu.py (lines 751-764): computes the
prior, returns negative infinity if it is not finite, and otherwise adds the
likelihood value.  The likelihood is abstracted as a function of theta. -/
def lnprob_emu (like : List PyF → ℚ) (ps : List (ℚ × ℚ)) (theta : List PyF) : PyF :=
  let lp := lnprior_emu ps theta
  if lp.isfinite then lp.add (PyF.fin (like theta)) else PyF.neginf

/-- Embeds lnprob of src/pearce/inference/runMCMC.py (lines 75-89), identical
in structure to the emu.py version but dispatching to the runMCMC prior. -/
def lnprob_run (like : List PyF → ℚ) (bs : List (ℚ × ℚ)) (theta : List PyF) : PyF :=
  let lp := lnprior_run bs theta
  if lp.isfinite then lp.add (PyF.fin (like theta)) else PyF.neginf

/-- Proposition: the value t is a finite number lying strictly inside the
open interval (low, high). -/
def StrictlyInside (low high : ℚ) (t : PyF) : Prop :=
  ∃ q : ℚ, t = PyF.fin q ∧ low < q ∧ q < high

/-- Proposition: the value t is a finite number lying inside the closed
interval from low to high. -/
def InsideClosed (low high : ℚ) (t : PyF) : Prop :=
  ∃ q : ℚ, t = PyF.fin q ∧ low ≤ q ∧ q ≤ high

/-- Embeds lnlike of src/pearce/emulator/emu.py (lines 781-807): given the
emulator prediction (mean and covariance abstracted as inputs, since
emulate_wrt_r is an external call from the point of view of this function),
forms D = G + cov, delta = y_bar - y, and returns
-0.5 * dot(delta, dot(inv(D), delta)). -/
noncomputable def lnlike_emu (q : ℕ) (y_bar y : Fin q → ℝ)
    (G cov : Matrix (Fin q) (Fin q) ℝ) : ℝ :=
  -(1 / 2) * Matrix.dotProduct (y_bar - y) ((G + cov)⁻¹.mulVec (y_bar - y))

/-- Embeds the accumulator loop of lnlike in src/pearce/inference/runMCMC.py
(lines 55-73): chi2 starts at 0 and for each observable the full quadratic
form delta . (combined_inv_cov . delta) is subtracted.  Each list entry is
(emulator prediction, measured y, precomputed combined inverse covariance). -/
def chi2_loop (q : ℕ) :
    ℝ → List ((Fin q → ℝ) × (Fin q → ℝ) × Matrix (Fin q) (Fin q) ℝ) → ℝ
  | acc, [] => acc
  | acc, ob :: rest =>
    chi2_loop q
      (acc - Matrix.dotProduct (ob.1 - ob.2.1) (ob.2.2.mulVec (ob.1 - ob.2.1))) rest

/-- Embeds lnlike of src/pearce/inference/runMCMC.py (lines 35-73): the
emulator predictions, the measured vectors and the precomputed inverse
combined covariances are zipped (as izip does) and the chi2 accumulator loop
is run from 0. -/
def lnlike_run (q : ℕ) (y_bars ys : List (Fin q → ℝ))
    (inv_covs : List (Matrix (Fin q) (Fin q) ℝ)) : ℝ :=
  chi2_loop q 0 (y_bars.zip (ys.zip inv_covs))

/-- Spec-side quadratic form, written as the explicit double sum
of the expression (ybar - y)T D (ybar - y). -/
def quad_form (q : ℕ) (D : Matrix (Fin q) (Fin q) ℝ) (v : Fin q → ℝ) : ℝ :=
  ∑ a, ∑ b, v a * D a b * v b

/-- Embeds the boolean lexicographic row comparison that the structured-array
view trick of Emu._sort_params (src/pearce/emulator/emu.py lines 281-317)
realizes: rows are compared field by field, earlier columns dominating. -/
def lexLe : List ℚ → List ℚ → Bool
  | [], _ => true
  | _ :: _, [] => false
  | a :: as, b :: bs => if a < b then true else if b < a then false else lexLe as bs

/-- Embeds Emu._sort_params (src/pearce/emulator/emu.py lines 281-317) in the
non-argsort branch: a one-row array is returned unchanged, otherwise the rows
are sorted lexicographically by the tuple of column values (a stable merge
sort keyed on all columns, the explicit form of the numpy structured view). -/
def sort_params (t : List (List ℚ)) : List (List ℚ) :=
  if t.length = 1 then t else t.mergeSort lexLe

/-- Embeds _random_initial_guess of src/pearce/inference/runMCMC.py (lines
152-170): each walker coordinate is a standard normal draw (supplied as the
randn argument) scaled by abs(high - low) / 6 and shifted by the bound
midpoint (low + high) / 2. -/
def random_initial_guess (d : ℕ) (bounds : Fin d → ℚ × ℚ) (randn : ℕ → Fin d → ℚ)
    (w : ℕ) (idx : Fin d) : ℚ :=
  randn w idx * (|(bounds idx).2 - (bounds idx).1| / 6) +
    ((bounds idx).1 + (bounds idx).2) / 2

/-- Embeds the walker initialization of Emu.run_mcmc in
src/pearce/emulator/emu.py (lines 734-738): np.random.normal with
loc = (high + low) / 2 and scale = (high + low) / 10, i.e. each coordinate is
loc + scale times a standard normal draw. -/
def emu_mcmc_pos0 (d : ℕ) (bounds : Fin d → ℚ × ℚ) (randn : ℕ → Fin d → ℚ)
    (w : ℕ) (idx : Fin d) : ℚ :=
  ((bounds idx).2 + (bounds idx).1) / 2 +
    ((bounds idx).2 + (bounds idx).1) / 10 * randn w idx

/-- Model of one sampled parameter point inside one epoch sub-directory of
the training corpus: the rows its file would write into the design matrix
(one row per scale bin, each row carrying the x-row together with its y and
yerr values), plus the raw observable and covariance entries that the NaN
screen of Emu.get_data inspects. -/
structure ObsPoint where
  rows : List (List ℚ × ℚ × ℚ)
  obs : List PyF
  cov : List PyF

/-- Embeds the NaN screen np.any(np.isnan(cov)) or np.any(np.isnan(obs)) of
Emu.get_data (src/pearce/emulator/emu.py line 170). -/
def ObsPoint.hasNaN (p : ObsPoint) : Bool :=
  p.cov.any PyF.isnan || p.obs.any PyF.isnan

/-- The block of rows a skipped point leaves behind: the preallocated
np.zeros rows of Emu.get_data are never written for a skipped point. -/
def zero_block (nbins ndim : ℕ) : List (List ℚ × ℚ × ℚ) :=
  List.replicate nbins (List.replicate ndim 0, 0, 0)

/-- Embeds the fill loop of Emu.get_data (lines 144-199) for one epoch
sub-directory: each point either writes its block of rows or, when its
observable or covariance contains NaN, leaves the preallocated zero rows. -/
def build_rows (nbins ndim : ℕ) (pts : List ObsPoint) : List (List ℚ × ℚ × ℚ) :=
  (pts.map (fun p => if p.hasNaN then zero_block nbins ndim else p.rows)).flatten

/-- Embeds zeros_slice = np.any(x != 0.0, axis=1) of Emu.get_data (line 207)
applied to x, y and yerr: only rows whose x part has a nonzero entry are
kept. -/
def zeros_slice (x : List (List ℚ × ℚ × ℚ)) : List (List ℚ × ℚ × ℚ) :=
  x.filter (fun r => r.1.any (fun v => v != 0))

/-- The x, y, yerr rows one epoch sub-directory contributes to the training
set in Emu.get_data. -/
def subdir_data (nbins ndim : ℕ) (pts : List ObsPoint) : List (List ℚ × ℚ × ℚ) :=
  zeros_slice (build_rows nbins ndim pts)

/-- Embeds the warned flag loop of Emu.get_data (lines 144-175): warned is
initialized to False for each sub-directory and a warning is emitted only for
the first skipped point while it is still False. -/
def warn_loop : List ObsPoint → Bool → ℕ
  | [], _ => 0
  | p :: ps, warned =>
    if p.hasNaN then (if warned then 0 else 1) + warn_loop ps true
    else warn_loop ps warned

/-- Number of warnings one epoch sub-directory emits during a load. -/
def subdir_warnings (pts : List ObsPoint) : ℕ := warn_loop pts false

/-- Total number of warnings one Emu.get_data call emits: the sub-directory
loop resets the warned flag for each sub-directory. -/
def load_warnings (dirs : List (List ObsPoint)) : ℕ :=
  (dirs.map subdir_warnings).sum

/-- Embeds chain = sampler.chain[:, nburn:, :].reshape((-1, num_params)) of
run_mcmc (src/pearce/inference/runMCMC.py lines 244-251 and
src/pearce/emulator/emu.py lines 740-745): the emcee chain has shape
(nwalkers, nsteps, ndim); the burn-in steps are dropped and the first two
axes are flattened row-major, walkers outermost. -/
def chain_flat (w s d b : ℕ) (hb : b ≤ s) (chain : Fin w → Fin s → Fin d → ℝ) :
    Matrix (Fin (w * (s - b))) (Fin d) ℝ :=
  Matrix.of fun r j =>
    chain r.divNat ⟨b + (r.modNat : Fin (s - b)).val, by
      have h := (r.modNat : Fin (s - b)).isLt
      omega⟩ j

/-- Embeds the reshape((-1,)) of the 3-d all_mu array of
ExtraCrispy._emulate_helper (src/pearce/emulator/emu.py line 1409): row-major
flattening with the query-point axis outermost, then scale bins, then
redshift bins. -/
def flat_mu (T S Z : ℕ) (allmu : Fin T → Fin S → Fin Z → ℝ) :
    Fin (T * (S * Z)) → ℝ :=
  fun r => allmu r.divNat r.modNat.divNat r.modNat.modNat

/-- Result values ExtraCrispy._emulate_helper could return: a flattened mean
vector, or a mean vector together with a flattened error vector. -/
inductive ECPrediction (n : ℕ) where
  | meanOnly (mu : Fin n → ℝ)
  | withErr (mu err : Fin n → ℝ)

/-- Embeds ExtraCrispy._emulate_helper (src/pearce/emulator/emu.py lines
1378-1412).  The per-bin GP predictions are abstracted as the predict
argument; all_mu[:, s, z] = predict + y_hat[s, z].  With gp_errs False the
flattened mean is returned.  With gp_errs True the return statement evaluates
all_err.rehsape((-1,)), a misspelling of reshape: numpy arrays have no
attribute rehsape, so the call raises AttributeError before returning, which
the embedding models as an error value. -/
def ec_emulate_helper (T S Z : ℕ) (gp_errs : Bool)
    (predict : Fin S → Fin Z → Fin T → ℝ) (y_hat : Fin S → Fin Z → ℝ) :
    Except String (ECPrediction (T * (S * Z))) :=
  let all_mu : Fin T → Fin S → Fin Z → ℝ := fun t s z => predict s z t + y_hat s z
  let mu := flat_mu T S Z all_mu
  if gp_errs then Except.error "AttributeError: rehsape"
  else Except.ok (ECPrediction.meanOnly mu)

/-- Embeds the block downdate formula of Emu._loo_errors
(src/pearce/emulator/emu.py lines 666-667) applied to an (N, N) inverse whose
leave-one-out row and column have already been swapped to the last position:
K_inv_full[:N-1, :N-1]
  - np.outer(K_inv_full[N-1, :N-1], K_inv_full[:N-1, N-1]) / K_inv_full[N-1, N-1]. -/
noncomputable def downdate (n : ℕ) (P : Matrix (Fin (n + 1)) (Fin (n + 1)) ℝ) :
    Matrix (Fin n) (Fin n) ℝ :=
  Matrix.of fun a b =>
    P a.castSucc b.castSucc -
      P (Fin.last n) a.castSucc * P b.castSucc (Fin.last n) /
        P (Fin.last n) (Fin.last n)

/-- The permutation the swap statements of Emu._loo_errors (lines 658-662)
apply to rows and columns: exchange index i with the last index. -/
def swap_last (n : ℕ) (i : Fin (n + 1)) : Equiv.Perm (Fin (n + 1)) :=
  Equiv.swap i (Fin.last n)

/-- Embeds K_m_idx_inv of Emu._loo_errors (lines 666-667): the cached full
inverse with row and column i swapped to the last position, then downdated to
an (N-1, N-1) matrix. -/
noncomputable def K_m_idx_inv (n : ℕ) (i : Fin (n + 1))
    (Kinv : Matrix (Fin (n + 1)) (Fin (n + 1)) ℝ) : Matrix (Fin n) (Fin n) ℝ :=
  downdate n (Kinv.submatrix (swap_last n i) (swap_last n i))

/-- The index map realizing x[:N-1] after the swap of Emu._loo_errors: the
remaining training points once point i is left out, in the order the code
holds them. -/
def rem_idx (n : ℕ) (i : Fin (n + 1)) (k : Fin n) : Fin (n + 1) :=
  swap_last n i k.castSucc

/-- Embeds the leave-one-out predictive mean of Emu._loo_errors (lines
669-674) computed with the downdated inverse:
mus[idx] = dot(kernel.value(t, x_rest), dot(K_m_idx_inv, y_rest - mean(x_rest)))
           + mean(t).
The kernel cross matrix Kt and the GP mean values are abstracted as inputs. -/
noncomputable def loo_mu (n q : ℕ) (i : Fin (n + 1))
    (K : Matrix (Fin (n + 1)) (Fin (n + 1)) ℝ) (y gp_mean_x : Fin (n + 1) → ℝ)
    (Kt : Matrix (Fin q) (Fin n) ℝ) (gp_mean_t : Fin q → ℝ) : Fin q → ℝ :=
  fun a =>
    Kt.mulVec ((K_m_idx_inv n i K⁻¹).mulVec
      (fun k => y (rem_idx n i k) - gp_mean_x (rem_idx n i k))) a + gp_mean_t a

/-- The same leave-one-out predictive mean computed the reference way: with a
fresh full inversion of the kernel matrix with row and column i removed (the
remaining points in the order the code holds them). -/
noncomputable def loo_mu_direct (n q : ℕ) (i : Fin (n + 1))
    (K : Matrix (Fin (n + 1)) (Fin (n + 1)) ℝ) (y gp_mean_x : Fin (n + 1) → ℝ)
    (Kt : Matrix (Fin q) (Fin n) ℝ) (gp_mean_t : Fin q → ℝ) : Fin q → ℝ :=
  fun a =>
    Kt.mulVec ((K.submatrix (rem_idx n i) (rem_idx n i))⁻¹.mulVec
      (fun k => y (rem_idx n i k) - gp_mean_x (rem_idx n i k))) a + gp_mean_t a

/-- The N x Q matrix mus of Emu._loo_errors (line 652): row idx holds the
leave-one-out mean vector for training index idx. -/
noncomputable def loo_mus (n q : ℕ) (K : Matrix (Fin (n + 1)) (Fin (n + 1)) ℝ)
    (y gp_mean_x : Fin (n + 1) → ℝ) (Kt : Fin (n + 1) → Matrix (Fin q) (Fin n) ℝ)
    (gp_mean_t : Fin q → ℝ) : Matrix (Fin (n + 1)) (Fin q) ℝ :=
  Matrix.of fun idx => loo_mu n q idx K y gp_mean_x (Kt idx) gp_mean_t

/-- Mean of column a of an (N, Q) matrix, as np.cov computes it. -/
noncomputable def col_mean (N Q : ℕ) (m : Matrix (Fin N) (Fin Q) ℝ) (a : Fin Q) : ℝ :=
  (∑ i, m i a) / N

/-- Embeds np.cov(mus, rowvar=False) before the final squeeze: columns are
the variables, rows the observations, default ddof gives denominator N - 1. -/
noncomputable def np_cov (N Q : ℕ) (m : Matrix (Fin N) (Fin Q) ℝ) : Matrix (Fin Q) (Fin Q) ℝ :=
  Matrix.of fun a b =>
    (∑ i, (m i a - col_mean N Q m a) * (m i b - col_mean N Q m b)) / (N - 1)

/-- Shape-aware value of a numpy covariance result: np.cov squeezes its
output, so a single-variable input yields a 0-d scalar instead of a (1, 1)
matrix. -/
inductive NpCovValue (Q : ℕ) where
  | scalar (v : ℝ)
  | mat (c : Matrix (Fin Q) (Fin Q) ℝ)

/-- Embeds np.cov(mus, rowvar=False) including the squeeze: with one column
the result collapses to the scalar variance, otherwise it is the (Q, Q)
matrix. -/
noncomputable def np_cov_squeezed (N Q : ℕ) (m : Matrix (Fin N) (Fin Q) ℝ) : NpCovValue Q :=
  if h : Q = 1 then
    NpCovValue.scalar (np_cov N Q m ⟨0, by omega⟩ ⟨0, by omega⟩)
  else NpCovValue.mat (np_cov N Q m)

/-- Scalar multiplication on a numpy covariance result, as in
cov = (N - 1.0) / N * np.cov(...). -/
noncomputable def np_scale (Q : ℕ) (c : ℝ) : NpCovValue Q → NpCovValue Q
  | NpCovValue.scalar v => NpCovValue.scalar (c * v)
  | NpCovValue.mat m => NpCovValue.mat (Matrix.of fun a b => c * m a b)

/-- Embeds the tail of Emu._loo_errors (lines 686-692): scale the squeezed
covariance by (N - 1) / N, then, when mus has a single column, wrap the
scalar back into a (1, 1) array with np.array([[cov]]); otherwise return the
matrix. -/
noncomputable def loo_errors_cov (N Q : ℕ) (mus : Matrix (Fin N) (Fin Q) ℝ) :
    Matrix (Fin Q) (Fin Q) ℝ :=
  match np_scale Q (((N : ℝ) - 1) / N) (np_cov_squeezed N Q mus) with
  | NpCovValue.scalar v => Matrix.of fun _ _ => v
  | NpCovValue.mat c => c

/-- Embeds the full return value of Emu._loo_errors: the jackknife covariance
of the N leave-one-out mean vectors. -/
noncomputable def loo_errors (n q : ℕ) (K : Matrix (Fin (n + 1)) (Fin (n + 1)) ℝ)
    (y gp_mean_x : Fin (n + 1) → ℝ) (Kt : Fin (n + 1) → Matrix (Fin q) (Fin n) ℝ)
    (gp_mean_t : Fin q → ℝ) : Matrix (Fin q) (Fin q) ℝ :=
  loo_errors_cov (n + 1) q (loo_mus n q K y gp_mean_x Kt gp_mean_t)

/-- Spec-side sample covariance of the rows of an (N, Q) matrix, in the
uncentered textbook form (sum of products minus N times the product of the
means, over N - 1). -/
noncomputable def sample_cov_spec (N Q : ℕ) (m : Matrix (Fin N) (Fin Q) ℝ) :
    Matrix (Fin Q) (Fin Q) ℝ :=
  Matrix.of fun a b =>
    ((∑ i, m i a * m i b) - N * col_mean N Q m a * col_mean N Q m b) / (N - 1)

/-- Spec-side jackknife covariance: (N - 1) / N times the sample covariance
of the N rows. -/
noncomputable def jackknife_cov_spec (N Q : ℕ) (m : Matrix (Fin N) (Fin Q) ℝ) :
    Matrix (Fin Q) (Fin Q) ℝ :=
  Matrix.of fun a b => ((N : ℝ) - 1) / N * sample_cov_spec N Q m a b

theorem pyf_lt_fin_iff (a b : ℚ) (t : PyF) :
    (PyF.lt (PyF.fin a) t && PyF.lt t (PyF.fin b)) = true ↔
      ∃ q : ℚ, t = PyF.fin q ∧ a < q ∧ q < b := by
  cases t with
  | nan => simp [PyF.lt]
  | neginf => simp [PyF.lt]
  | fin q =>
    simp only [PyF.lt, Bool.and_eq_true, decide_eq_true_eq]
    constructor
    · rintro ⟨h1, h2⟩; exact ⟨q, rfl, h1, h2⟩
    · rintro ⟨r, hr, h1, h2⟩
      cases hr
      exact ⟨h1, h2⟩

theorem lnprior_emu_values (ps : List (ℚ × ℚ)) (theta : List PyF) :
    lnprior_emu ps theta = PyF.fin 0 ∨ lnprior_emu ps theta = PyF.neginf := by
  unfold lnprior_emu
  by_cases h : (ps.zip theta).all
      (fun pt => PyF.lt (PyF.fin pt.1.1) pt.2 && PyF.lt pt.2 (PyF.fin pt.1.2)) = true
  · left; simp [h]
  · right; simp [h]

theorem lnprior_emu_eq_zero_iff (ps : List (ℚ × ℚ)) (theta : List PyF) :
    lnprior_emu ps theta = PyF.fin 0 ↔
      ∀ pt ∈ ps.zip theta, StrictlyInside pt.1.1 pt.1.2 pt.2 := by
  unfold lnprior_emu
  split_ifs with h
  · rw [List.all_eq_true] at h
    simp only [true_iff, eq_self_iff_true]
    intro pt hpt
    exact (pyf_lt_fin_iff pt.1.1 pt.1.2 pt.2).mp (h pt hpt)
  · constructor
    · intro hc; exact absurd hc (by simp)
    · intro hall
      exfalso
      apply h
      rw [List.all_eq_true]
      intro pt hpt
      exact (pyf_lt_fin_iff pt.1.1 pt.1.2 pt.2).mpr (hall pt hpt)

theorem lnprior_run_values : ∀ (bs : List (ℚ × ℚ)) (theta : List PyF),
    lnprior_run bs theta = PyF.fin 0 ∨ lnprior_run bs theta = PyF.neginf := by
  intro bs
  induction bs with
  | nil => intro theta; left; rfl
  | cons b bs ih =>
    intro theta
    cases theta with
    | nil => left; rfl
    | cons t ts =>
      obtain ⟨low, high⟩ := b
      by_cases h : (t.isnan || PyF.lt t (PyF.fin low) || PyF.lt (PyF.fin high) t) = true
      · right; simp [lnprior_run, h]
      · simpa [lnprior_run, h] using ih ts

theorem pyf_closed_iff (low high : ℚ) (t : PyF) :
    (t.isnan || PyF.lt t (PyF.fin low) || PyF.lt (PyF.fin high) t) = false ↔
      InsideClosed low high t := by
  cases t with
  | nan => simp [PyF.isnan, PyF.lt, InsideClosed]
  | neginf => simp [PyF.isnan, PyF.lt, InsideClosed]
  | fin q =>
    simp only [PyF.isnan, PyF.lt, Bool.false_or, Bool.or_eq_false_iff,
      decide_eq_false_iff_not, not_lt, InsideClosed]
    constructor
    · rintro ⟨h1, h2⟩; exact ⟨q, rfl, h1, h2⟩
    · rintro ⟨r, hr, h1, h2⟩
      cases hr
      exact ⟨h1, h2⟩

theorem lnprior_run_eq_zero_iff : ∀ (bs : List (ℚ × ℚ)) (theta : List PyF),
    lnprior_run bs theta = PyF.fin 0 ↔
      ∀ bt ∈ bs.zip theta, InsideClosed bt.1.1 bt.1.2 bt.2 := by
  intro bs
  induction bs with
  | nil => intro theta; simp [lnprior_run]
  | cons b bs ih =>
    intro theta
    cases theta with
    | nil => simp [lnprior_run]
    | cons t ts =>
      obtain ⟨low, high⟩ := b
      by_cases h : (t.isnan || PyF.lt t (PyF.fin low) || PyF.lt (PyF.fin high) t) = true
      · simp only [lnprior_run, h, if_true]
        constructor
        · intro hc; exact absurd hc (by simp)
        · intro hall
          exfalso
          have hmem : ((low, high), t) ∈ ((low, high) :: bs).zip (t :: ts) :=
            List.mem_cons_self _ _
          have := hall _ hmem
          rw [← pyf_closed_iff low high t] at this
          rw [this] at h
          exact Bool.false_ne_true h
      · have hf : (t.isnan || PyF.lt t (PyF.fin low) || PyF.lt (PyF.fin high) t) = false :=
          Bool.eq_false_iff.mpr h
        simp only [lnprior_run, hf]
        rw [if_neg Bool.false_ne_true, ih ts]
        constructor
        · intro hall bt hbt
          rcases List.mem_cons.mp hbt with h1 | h2
          · cases h1
            exact (pyf_closed_iff low high t).mp hf
          · exact hall bt h2
        · intro hall bt hbt
          exact hall bt (List.mem_cons_of_mem _ hbt)

/-- Counterexample to C3 as stated: a component exactly equal to its lower
bound makes the runMCMC prior return 0, not negative infinity, because the
rejection test uses strict comparisons t < low or t > high. -/
theorem lnprior_boundary_counterexample :
    lnprior_run [(0, 1)] [PyF.fin 0] = PyF.fin 0 ∧ PyF.fin 0 ≠ PyF.neginf := by
  constructor
  · rfl
  · intro h; exact PyF.noConfusion h

/-- C3 amended: the emu.py prior returns 0 exactly when every zipped
component is a finite value strictly inside its open bound interval (so NaN,
out-of-range and boundary values all give negative infinity there), while the
runMCMC prior returns 0 exactly when every zipped component is a finite value
inside the closed bound interval, accepting values equal to a bound; both
priors take no value other than 0 and negative infinity. -/
theorem lnprior_amended (ps : List (ℚ × ℚ)) (theta : List PyF) :
    (lnprior_emu ps theta = PyF.fin 0 ↔
      ∀ pt ∈ ps.zip theta, StrictlyInside pt.1.1 pt.1.2 pt.2) ∧
    (lnprior_emu ps theta = PyF.fin 0 ∨ lnprior_emu ps theta = PyF.neginf) ∧
    (lnprior_run ps theta = PyF.fin 0 ↔
      ∀ pt ∈ ps.zip theta, InsideClosed pt.1.1 pt.1.2 pt.2) ∧
    (lnprior_run ps theta = PyF.fin 0 ∨ lnprior_run ps theta = PyF.neginf) :=
  ⟨lnprior_emu_eq_zero_iff ps theta, lnprior_emu_values ps theta,
    lnprior_run_eq_zero_iff ps theta, lnprior_run_values ps theta⟩

/-- C5: both lnprob implementations return prior plus likelihood when the
prior is finite and negative infinity otherwise; when the prior rejects, the
result does not depend on the likelihood function at all, which is the
shallow-embedding form of the guarantee that the likelihood is never
evaluated on rejected proposals. -/
theorem lnprob_short_circuit (f g : List PyF → ℚ) (ps : List (ℚ × ℚ))
    (theta : List PyF) :
    (lnprior_emu ps theta = PyF.neginf →
      lnprob_emu f ps theta = PyF.neginf ∧
        lnprob_emu f ps theta = lnprob_emu g ps theta) ∧
    (lnprior_emu ps theta ≠ PyF.neginf →
      lnprob_emu f ps theta = (lnprior_emu ps theta).add (PyF.fin (f theta))) ∧
    (lnprior_run ps theta = PyF.neginf →
      lnprob_run f ps theta = PyF.neginf ∧
        lnprob_run f ps theta = lnprob_run g ps theta) ∧
    (lnprior_run ps theta ≠ PyF.neginf →
      lnprob_run f ps theta = (lnprior_run ps theta).add (PyF.fin (f theta))) := by
  refine ⟨?_, ?_, ?_, ?_⟩
  · intro h
    constructor <;> simp [lnprob_emu, h, PyF.isfinite]
  · intro h
    rcases lnprior_emu_values ps theta with h0 | h0
    · simp [lnprob_emu, h0, PyF.isfinite]
    · exact absurd h0 h
  · intro h
    constructor <;> simp [lnprob_run, h, PyF.isfinite]
  · intro h
    rcases lnprior_run_values ps theta with h0 | h0
    · simp [lnprob_run, h0, PyF.isfinite]
    · exact absurd h0 h

theorem lnprob_short_circuit_witness :
    lnprior_emu [(0, 1)] [PyF.fin 2] = PyF.neginf ∧
      lnprob_emu (fun _ => 5) [(0, 1)] [PyF.fin 2] = PyF.neginf :=
  ⟨by decide,
    ((lnprob_short_circuit (fun _ => 5) (fun _ => 7) [(0, 1)] [PyF.fin 2]).1
      (by decide)).1⟩

theorem dotProduct_mulVec_quad (q : ℕ) (D : Matrix (Fin q) (Fin q) ℝ)
    (v : Fin q → ℝ) : Matrix.dotProduct v (D.mulVec v) = quad_form q D v := by
  unfold quad_form Matrix.dotProduct Matrix.mulVec
  refine Finset.sum_congr rfl fun a _ => ?_
  unfold Matrix.dotProduct
  rw [Finset.mul_sum]
  exact Finset.sum_congr rfl fun b _ => by ring

theorem chi2_loop_eq (q : ℕ) :
    ∀ (l : List ((Fin q → ℝ) × (Fin q → ℝ) × Matrix (Fin q) (Fin q) ℝ)) (acc : ℝ),
      chi2_loop q acc l =
        acc - (l.map (fun ob => quad_form q ob.2.2 (ob.1 - ob.2.1))).sum := by
  intro l
  induction l with
  | nil => intro acc; simp [chi2_loop]
  | cons ob rest ih =>
    intro acc
    simp only [chi2_loop, List.map_cons, List.sum_cons]
    rw [ih, dotProduct_mulVec_quad]
    ring

/-- Counterexample to C4 as stated: with a single observable, one bin,
prediction 2, measurement 1 and combined inverse covariance the identity, the
runMCMC likelihood evaluates to -1 while the claimed value
-(1/2) (ybar - y)T D inverse (ybar - y), which the emu.py likelihood computes
at D = G + cov = 1, equals -1/2: the runMCMC implementation omits the factor
one half. -/
theorem lnlike_factor_counterexample :
    lnlike_run 1 [fun _ => 2] [fun _ => 1] [(1 : Matrix (Fin 1) (Fin 1) ℝ)] = -1 ∧
      lnlike_emu 1 (fun _ => 2) (fun _ => 1) 0 (1 : Matrix (Fin 1) (Fin 1) ℝ) =
        -(1 / 2) := by
  constructor
  · show chi2_loop 1 0 _ = -1
    simp [chi2_loop, Matrix.dotProduct, Matrix.mulVec, Fin.sum_univ_one,
      Matrix.one_apply]
    norm_num
  · unfold lnlike_emu
    rw [zero_add, inv_one]
    simp [Matrix.dotProduct, Matrix.mulVec, Fin.sum_univ_one, Matrix.one_apply]
    norm_num

/-- C4 amended: the emu.py likelihood equals the claimed
-(1/2) (ybar - y)T (G + cov) inverse (ybar - y) for its single observable,
while the runMCMC likelihood sums over the observables the full (not halved)
quadratic forms in the precomputed combined inverse covariances, so on a
single observable it returns twice the emu.py value. -/
theorem lnlike_amended (q : ℕ) (y_bar y : Fin q → ℝ)
    (G cov : Matrix (Fin q) (Fin q) ℝ) (y_bars ys : List (Fin q → ℝ))
    (inv_covs : List (Matrix (Fin q) (Fin q) ℝ)) :
    lnlike_emu q y_bar y G cov = -(1 / 2) * quad_form q (G + cov)⁻¹ (y_bar - y) ∧
    lnlike_run q y_bars ys inv_covs =
      -(((y_bars.zip (ys.zip inv_covs)).map
          (fun ob => quad_form q ob.2.2 (ob.1 - ob.2.1))).sum) ∧
    lnlike_run q [y_bar] [y] [(G + cov)⁻¹] = 2 * lnlike_emu q y_bar y G cov := by
  refine ⟨?_, ?_, ?_⟩
  · unfold lnlike_emu
    rw [dotProduct_mulVec_quad]
  · unfold lnlike_run
    rw [chi2_loop_eq]
    ring
  · unfold lnlike_run lnlike_emu
    rw [chi2_loop_eq, dotProduct_mulVec_quad]
    simp only [List.zip_cons_cons, List.zip_nil_right, List.map_cons,
      List.map_nil, List.sum_cons, List.sum_nil]
    ring

theorem lexLe_total : ∀ (a b : List ℚ), (lexLe a b || lexLe b a) = true := by
  intro a
  induction a with
  | nil => intro b; simp [lexLe]
  | cons x as ih =>
    intro b
    cases b with
    | nil => simp [lexLe]
    | cons y bs =>
      rcases lt_trichotomy x y with h | h | h
      · simp [lexLe, h]
      · subst h
        simp only [lexLe, lt_irrefl, if_false]
        exact ih bs
      · simp [lexLe, h, not_lt.mpr h.le, lt_irrefl]

theorem lexLe_trans : ∀ (a b c : List ℚ),
    lexLe a b = true → lexLe b c = true → lexLe a c = true := by
  intro a
  induction a with
  | nil => intro b c _ _; rfl
  | cons x as ih =>
    intro b c hab hbc
    cases b with
    | nil => exact absurd hab (by simp [lexLe])
    | cons y bs =>
      cases c with
      | nil => exact absurd hbc (by simp [lexLe])
      | cons z cs =>
        simp only [lexLe] at hab hbc ⊢
        rcases lt_trichotomy x y with hxy | hxy | hxy
        · rcases lt_trichotomy y z with hyz | hyz | hyz
          · rw [if_pos (hxy.trans hyz)]
          · subst hyz; rw [if_pos hxy]
          · rw [if_pos hyz, if_neg (not_lt.mpr hyz.le)] at hbc
            exact absurd hbc (by simp)
        · subst hxy
          rw [if_neg (lt_irrefl x), if_neg (lt_irrefl x)] at hab
          rcases lt_trichotomy x z with hyz | hyz | hyz
          · rw [if_pos hyz]
          · subst hyz
            rw [if_neg (lt_irrefl x), if_neg (lt_irrefl x)] at hbc ⊢
            exact ih bs cs hab hbc
          · rw [if_neg (not_lt.mpr hyz.le), if_pos hyz] at hbc
            exact absurd hbc (by simp)
        · rw [if_neg (not_lt.mpr hxy.le), if_pos hxy] at hab
          exact absurd hab (by simp)

/-- C6: the canonicalizing lexicographic sort applied before prediction is
idempotent, and a one-row query matrix is returned unchanged. -/
theorem sort_params_idempotent (t : List (List ℚ)) :
    sort_params (sort_params t) = sort_params t ∧
      ∀ r : List ℚ, sort_params [r] = [r] := by
  constructor
  · by_cases h : t.length = 1
    · simp [sort_params, h]
    · have hlen : (t.mergeSort lexLe).length = t.length :=
        (List.mergeSort_perm t lexLe).length_eq
      have hsorted : List.Pairwise (fun a b => lexLe a b = true) (t.mergeSort lexLe) :=
        List.sorted_mergeSort lexLe_trans lexLe_total t
      simp only [sort_params, if_neg h, hlen, if_neg h]
      exact List.mergeSort_of_sorted hsorted
  · intro r
    simp [sort_params]

/-- Counterexample to C7 as stated: on the bound interval (0, 1) with a unit
standard normal draw, the emu.py run_mcmc initializer produces
1/2 + (1/10) = 3/5, while a Gaussian centered at the midpoint with standard
deviation equal to the interval width over 6, as the claim and the runMCMC
initializer have it, produces 1/2 + 1/6 = 2/3: the emu.py scale is
(high + low) / 10, not the width over 6. -/
theorem emu_pos0_counterexample :
    emu_mcmc_pos0 1 (fun _ => (0, 1)) (fun _ _ => 1) 0 0 = 3 / 5 ∧
      random_initial_guess 1 (fun _ => (0, 1)) (fun _ _ => 1) 0 0 = 2 / 3 ∧
      (3 / 5 : ℚ) ≠ 2 / 3 := by
  refine ⟨?_, ?_, by norm_num⟩
  · norm_num [emu_mcmc_pos0]
  · norm_num [random_initial_guess]

/-- C7 amended: when not resuming, the runMCMC driver draws every walker
coordinate from a Gaussian centered at the bound midpoint with standard
deviation abs(high - low) / 6 (its value is the midpoint plus that scale
times the standard normal draw); the legacy emu.py run_mcmc initializer is
also centered at the midpoint but uses scale (low + high) / 10 instead of the
width over 6. -/
theorem initial_guess_amended (d : ℕ) (bounds : Fin d → ℚ × ℚ)
    (randn : ℕ → Fin d → ℚ) (w : ℕ) (idx : Fin d) :
    random_initial_guess d bounds randn w idx =
      ((bounds idx).1 + (bounds idx).2) / 2 +
        |(bounds idx).2 - (bounds idx).1| / 6 * randn w idx ∧
    random_initial_guess d bounds (fun _ _ => 0) w idx =
      ((bounds idx).1 + (bounds idx).2) / 2 ∧
    emu_mcmc_pos0 d bounds randn w idx =
      ((bounds idx).1 + (bounds idx).2) / 2 +
        ((bounds idx).1 + (bounds idx).2) / 10 * randn w idx ∧
    emu_mcmc_pos0 d bounds (fun _ _ => 0) w idx =
      ((bounds idx).1 + (bounds idx).2) / 2 := by
  refine ⟨?_, ?_, ?_, ?_⟩ <;> simp only [random_initial_guess, emu_mcmc_pos0] <;> ring

theorem zero_row_filtered (ndim : ℕ) :
    (List.replicate ndim (0 : ℚ)).any (fun v => v != 0) = false := by
  induction ndim with
  | zero => rfl
  | succ k ih => simp [List.replicate_succ, ih]

theorem zeros_slice_zero_block (nbins ndim : ℕ) (l : List (List ℚ × ℚ × ℚ)) :
    zeros_slice (zero_block nbins ndim ++ l) = zeros_slice l := by
  unfold zeros_slice zero_block
  rw [List.filter_append]
  have h : (List.replicate nbins ((List.replicate ndim (0 : ℚ)), (0 : ℚ), (0 : ℚ))).filter
      (fun r => r.1.any (fun v => v != 0)) = [] := by
    induction nbins with
    | zero => rfl
    | succ k ih =>
      rw [List.replicate_succ, List.filter_cons]
      simp only [zero_row_filtered]
      exact ih
  rw [h, List.nil_append]

theorem warn_loop_true (pts : List ObsPoint) : warn_loop pts true = 0 := by
  induction pts with
  | nil => rfl
  | cons p ps ih =>
    unfold warn_loop
    by_cases h : p.hasNaN = true <;> simp [h, ih]

theorem subdir_warnings_eq (pts : List ObsPoint) :
    subdir_warnings pts = if pts.any ObsPoint.hasNaN then 1 else 0 := by
  unfold subdir_warnings
  induction pts with
  | nil => rfl
  | cons p ps ih =>
    unfold warn_loop
    by_cases h : p.hasNaN = true
    · simp [h, warn_loop_true]
    · simp only [h, if_false, Bool.false_eq_true]
      rw [ih]
      simp [List.any_cons, h]

/-- Counterexample to C8 as stated: a load spanning two epoch
sub-directories, each containing one NaN point, issues two warnings, because
the warned flag of Emu.get_data is reset at the start of every sub-directory
iteration; the claim says exactly one warning per load. -/
theorem load_warnings_counterexample :
    load_warnings [[⟨[], [PyF.nan], []⟩], [⟨[], [PyF.nan], []⟩]] = 2 ∧
      (2 : ℕ) ≠ 1 := ⟨rfl, by norm_num⟩

/-- C8 amended: a point whose observable or covariance contains NaN
contributes no rows to x, y or yerr (its preallocated zero rows are removed
by the zeros slice, so the sub-directory data equals the filtered data of the
NaN-free points alone); the warning is aggregated per epoch sub-directory,
one warning for each sub-directory that skips at least one point, so a load
over several sub-directories may issue several warnings (not exactly one per
load); the skipping path raises no error, so loading proceeds on the valid
subset. -/
theorem get_data_nan_amended (nbins ndim : ℕ) (pts : List ObsPoint)
    (dirs : List (List ObsPoint)) :
    subdir_data nbins ndim pts =
      zeros_slice ((pts.filter (fun p => !p.hasNaN)).map ObsPoint.rows).flatten ∧
    subdir_warnings pts = (if pts.any ObsPoint.hasNaN then 1 else 0) ∧
    load_warnings dirs = dirs.countP (fun d => d.any ObsPoint.hasNaN) := by
  refine ⟨?_, subdir_warnings_eq pts, ?_⟩
  · unfold subdir_data build_rows
    induction pts with
    | nil => rfl
    | cons p ps ih =>
      rw [List.map_cons, List.flatten_cons]
      by_cases h : p.hasNaN = true
      · rw [if_pos h, zeros_slice_zero_block]
        have hfil : List.filter (fun p => !p.hasNaN) (p :: ps) =
            List.filter (fun p => !p.hasNaN) ps := by
          rw [List.filter_cons]
          simp [h]
        rw [hfil]
        exact ih
      · have hb2 : p.hasNaN = false := Bool.eq_false_iff.mpr h
        rw [if_neg h]
        have hfil : List.filter (fun p => !p.hasNaN) (p :: ps) =
            p :: List.filter (fun p => !p.hasNaN) ps := by
          rw [List.filter_cons]
          simp [hb2]
        rw [hfil, List.map_cons, List.flatten_cons]
        unfold zeros_slice at ih ⊢
        rw [List.filter_append, List.filter_append, ih]
  · induction dirs with
    | nil => rfl
    | cons dd dds ih =>
      unfold load_warnings at *
      rw [List.map_cons, List.sum_cons, ih, List.countP_cons, subdir_warnings_eq]
      by_cases h : dd.any ObsPoint.hasNaN = true
      · simp only [h, if_true]
        omega
      · simp [h]

/-- C9: dropping nburn steps and flattening the emcee chain yields a matrix
with nwalkers times (nsteps - nburn) rows, equivalently
(nsteps - nburn) times nwalkers as the claim states it; rows are in bijection
with (walker, post-burn step) pairs, and the row of walker wi and post-burn
step st holds the chain values of walker wi at step nburn + st. -/
theorem run_mcmc_chain_shape (w s d b : ℕ) (hb : b ≤ s)
    (chain : Fin w → Fin s → Fin d → ℝ) :
    w * (s - b) = (s - b) * w ∧
    Function.Bijective
      (fun r : Fin (w * (s - b)) => (r.divNat, r.modNat)) ∧
    ∀ (wi : Fin w) (st : Fin (s - b)) (j : Fin d),
      chain_flat w s d b hb chain (finProdFinEquiv (wi, st)) j =
        chain wi ⟨b + st.val, by omega⟩ j := by
  refine ⟨Nat.mul_comm w (s - b), ?_, ?_⟩
  · exact finProdFinEquiv.symm.bijective
  · intro wi st j
    have h := finProdFinEquiv.symm_apply_apply (wi, st)
    have h1 : (finProdFinEquiv (wi, st) : Fin (w * (s - b))).divNat = wi :=
      congrArg Prod.fst h
    have h2 : (finProdFinEquiv (wi, st) : Fin (w * (s - b))).modNat = st :=
      congrArg Prod.snd h
    have h2v : ((finProdFinEquiv (wi, st) : Fin (w * (s - b))).modNat : ℕ) = st.val :=
      congrArg Fin.val h2
    unfold chain_flat
    rw [Matrix.of_apply, h1]
    exact congrArg (fun z => chain wi z j)
      (Fin.ext (show b + ((finProdFinEquiv (wi, st) :
        Fin (w * (s - b))).modNat : ℕ) = b + st.val from by rw [h2v]))

theorem run_mcmc_chain_shape_witness :
    (2 : ℕ) ≤ 5 ∧ 20 * (5 - 2) = 60 ∧
      (20 * (5 - 2) = (5 - 2) * 20 ∧
        Function.Bijective
          (fun r : Fin (20 * (5 - 2)) => (r.divNat, r.modNat)) ∧
        ∀ (wi : Fin 20) (st : Fin (5 - 2)) (j : Fin 1),
          chain_flat 20 5 1 2 (by norm_num) (fun _ _ _ => 0)
              (finProdFinEquiv (wi, st)) j = (0 : ℝ)) :=
  ⟨by norm_num, by norm_num,
    run_mcmc_chain_shape 20 5 1 2 (by norm_num) (fun _ _ _ => 0)⟩

/-- C10: the ExtraCrispy prediction helper fails with an error exactly when
gp_errs is requested (the error-return path evaluates the nonexistent array
attribute rehsape, a misspelling of reshape, so no ExtraCrispy prediction can
successfully return GP errors), while with gp_errs false it returns the
flattened mean vector whose entry for query t and bin pair (s, z) is the GP
prediction of that bin plus the subtracted baseline. -/
theorem ec_emulate_helper_spec (T S Z : ℕ)
    (predict : Fin S → Fin Z → Fin T → ℝ) (y_hat : Fin S → Fin Z → ℝ) :
    (∀ g : Bool,
      (∃ e, ec_emulate_helper T S Z g predict y_hat = Except.error e) ↔ g = true) ∧
    ec_emulate_helper T S Z false predict y_hat =
      Except.ok (ECPrediction.meanOnly
        (flat_mu T S Z (fun t s z => predict s z t + y_hat s z))) ∧
    ∀ (t : Fin T) (s : Fin S) (z : Fin Z),
      flat_mu T S Z (fun t s z => predict s z t + y_hat s z)
          (finProdFinEquiv (t, finProdFinEquiv (s, z))) =
        predict s z t + y_hat s z := by
  refine ⟨?_, rfl, ?_⟩
  · intro g
    cases g with
    | true => exact ⟨fun _ => rfl, fun _ => ⟨_, rfl⟩⟩
    | false =>
      constructor
      · rintro ⟨e, he⟩
        exact absurd he (by simp [ec_emulate_helper])
      · intro h; exact absurd h (by simp)
  · intro t s z
    have houter := finProdFinEquiv.symm_apply_apply (t, finProdFinEquiv (s, z))
    have h1 : (finProdFinEquiv (t, finProdFinEquiv (s, z)) :
        Fin (T * (S * Z))).divNat = t := congrArg Prod.fst houter
    have h2 : (finProdFinEquiv (t, finProdFinEquiv (s, z)) :
        Fin (T * (S * Z))).modNat = finProdFinEquiv (s, z) :=
      congrArg Prod.snd houter
    have hinner := finProdFinEquiv.symm_apply_apply (s, z)
    have h3 : (finProdFinEquiv (s, z) : Fin (S * Z)).divNat = s :=
      congrArg Prod.fst hinner
    have h4 : (finProdFinEquiv (s, z) : Fin (S * Z)).modNat = z :=
      congrArg Prod.snd hinner
    unfold flat_mu
    rw [h1, h2, h3, h4]

theorem posDef_diag_pos {m : Type*} [Fintype m] [DecidableEq m]
    {A : Matrix m m ℝ} (hA : A.PosDef) (i : m) : 0 < A i i := by
  have hx : (Pi.single i 1 : m → ℝ) ≠ 0 := by
    intro h
    have := congrFun h i
    simp at this
  have h := hA.2 (Pi.single i 1) hx
  simpa [Matrix.mulVec_single, Matrix.single_dotProduct, Pi.single_apply] using h

theorem posDef_submatrix_equiv {k m : Type*} [Fintype k] [Fintype m]
    [DecidableEq k] [DecidableEq m] {M : Matrix m m ℝ} (hM : M.PosDef)
    (e : k ≃ m) : (M.submatrix e e).PosDef := by
  constructor
  · ext a b
    rw [Matrix.conjTranspose_apply, Matrix.submatrix_apply, Matrix.submatrix_apply]
    exact hM.1.apply (e a) (e b)
  · intro x hx
    have hx2 : x ∘ e.symm ≠ 0 := by
      intro hcon
      apply hx
      funext i
      have := congrFun hcon (e i)
      simpa using this
    have h := hM.2 (x ∘ e.symm) hx2
    have heq : Matrix.dotProduct (star x) ((M.submatrix e e).mulVec x) =
        Matrix.dotProduct (star (x ∘ e.symm)) (M.mulVec (x ∘ e.symm)) := by
      rw [Matrix.submatrix_mulVec_equiv]
      exact (Matrix.comp_equiv_symm_dotProduct (star x) _ e).symm
    rw [heq]
    exact h

theorem schur_block_mul (n : ℕ) (M P : Matrix (Fin (n + 1)) (Fin (n + 1)) ℝ)
    (hPM : P * M = 1) (hd : P (Fin.last n) (Fin.last n) ≠ 0) :
    (Matrix.of fun a b : Fin n =>
        P a.castSucc b.castSucc -
          P a.castSucc (Fin.last n) * P (Fin.last n) b.castSucc /
            P (Fin.last n) (Fin.last n)) *
      M.submatrix Fin.castSucc Fin.castSucc = 1 := by
  ext a b
  have h1 : (P * M) a.castSucc b.castSucc =
      (1 : Matrix (Fin (n + 1)) (Fin (n + 1)) ℝ) a.castSucc b.castSucc := by
    rw [hPM]
  have h2 : (P * M) (Fin.last n) b.castSucc =
      (1 : Matrix (Fin (n + 1)) (Fin (n + 1)) ℝ) (Fin.last n) b.castSucc := by
    rw [hPM]
  rw [Matrix.mul_apply, Fin.sum_univ_castSucc] at h1 h2
  rw [Matrix.one_apply_ne (Fin.castSucc_lt_last b).ne'] at h2
  have hone : (1 : Matrix (Fin (n + 1)) (Fin (n + 1)) ℝ) a.castSucc b.castSucc =
      (1 : Matrix (Fin n) (Fin n) ℝ) a b := by
    by_cases hab : a = b
    · subst hab; simp
    · rw [Matrix.one_apply_ne (by simpa [Fin.castSucc_inj] using hab),
        Matrix.one_apply_ne hab]
  rw [hone] at h1
  rw [Matrix.mul_apply]
  simp only [Matrix.of_apply, Matrix.submatrix_apply]
  have hexp : ∀ kk : Fin n,
      (P a.castSucc kk.castSucc -
          P a.castSucc (Fin.last n) * P (Fin.last n) kk.castSucc /
            P (Fin.last n) (Fin.last n)) * M kk.castSucc b.castSucc =
        P a.castSucc kk.castSucc * M kk.castSucc b.castSucc -
          P a.castSucc (Fin.last n) / P (Fin.last n) (Fin.last n) *
            (P (Fin.last n) kk.castSucc * M kk.castSucc b.castSucc) :=
    fun kk => by ring
  rw [Finset.sum_congr rfl fun kk _ => hexp kk, Finset.sum_sub_distrib,
    ← Finset.mul_sum]
  have hS1 : ∑ kk : Fin n, P a.castSucc kk.castSucc * M kk.castSucc b.castSucc =
      (1 : Matrix (Fin n) (Fin n) ℝ) a b -
        P a.castSucc (Fin.last n) * M (Fin.last n) b.castSucc := by
    linarith [h1]
  have hS2 : ∑ kk : Fin n, P (Fin.last n) kk.castSucc * M kk.castSucc b.castSucc =
      -(P (Fin.last n) (Fin.last n) * M (Fin.last n) b.castSucc) := by
    linarith [h2]
  rw [hS1, hS2]
  field_simp
  ring

theorem downdate_eq_inv (n : ℕ) (M : Matrix (Fin (n + 1)) (Fin (n + 1)) ℝ)
    (hM : M.PosDef) :
    downdate n M⁻¹ = (M.submatrix Fin.castSucc Fin.castSucc)⁻¹ := by
  have hinv : M⁻¹.PosDef := hM.inv
  have hd : 0 < M⁻¹ (Fin.last n) (Fin.last n) := posDef_diag_pos hinv _
  have hPM : M⁻¹ * M = 1 := Matrix.nonsing_inv_mul M hM.det_pos.ne'.isUnit
  have hkey := schur_block_mul n M M⁻¹ hPM hd.ne'
  have hsym : ∀ a b, M⁻¹ a b = M⁻¹ b a := fun a b => by
    have h := hinv.1.apply a b
    rw [star_trivial] at h
    exact h.symm
  have heq : downdate n M⁻¹ = Matrix.of fun a b : Fin n =>
      M⁻¹ a.castSucc b.castSucc -
        M⁻¹ a.castSucc (Fin.last n) * M⁻¹ (Fin.last n) b.castSucc /
          M⁻¹ (Fin.last n) (Fin.last n) := by
    ext a b
    unfold downdate
    rw [Matrix.of_apply, Matrix.of_apply, hsym (Fin.last n) a.castSucc,
      hsym b.castSucc (Fin.last n)]
  rw [heq]
  exact (Matrix.inv_eq_left_inv hkey).symm

/-- C1: for a positive definite (in particular invertible) kernel matrix K
with cached full inverse, the rank-one downdate of Emu._loo_errors (swap row
and column i to the last position, take the leading block and subtract the
outer product of the last column and row over the corner entry) equals the
inverse of the kernel matrix with row and column i removed (the remaining
points in the order the code holds them after the swap), and consequently the
analytic leave-one-out predictive mean at every query set coincides with the
mean computed from a fresh full inversion with point i left out. -/
theorem loo_downdate_correct (n : ℕ) (i : Fin (n + 1))
    (K : Matrix (Fin (n + 1)) (Fin (n + 1)) ℝ) (hK : K.PosDef) :
    K_m_idx_inv n i K⁻¹ = (K.submatrix (rem_idx n i) (rem_idx n i))⁻¹ ∧
    ∀ (q : ℕ) (y gp_mean_x : Fin (n + 1) → ℝ) (Kt : Matrix (Fin q) (Fin n) ℝ)
      (gp_mean_t : Fin q → ℝ),
      loo_mu n q i K y gp_mean_x Kt gp_mean_t =
        loo_mu_direct n q i K y gp_mean_x Kt gp_mean_t := by
  have hmain : K_m_idx_inv n i K⁻¹ = (K.submatrix (rem_idx n i) (rem_idx n i))⁻¹ := by
    have hsub : (K.submatrix (swap_last n i) (swap_last n i)).PosDef :=
      posDef_submatrix_equiv hK (swap_last n i)
    have hswap : K⁻¹.submatrix (swap_last n i) (swap_last n i) =
        (K.submatrix (swap_last n i) (swap_last n i))⁻¹ :=
      (Matrix.inv_submatrix_equiv K (swap_last n i) (swap_last n i)).symm
    unfold K_m_idx_inv
    rw [hswap, downdate_eq_inv n _ hsub, Matrix.submatrix_submatrix]
    rfl
  refine ⟨hmain, ?_⟩
  intro q y gp_mean_x Kt gp_mean_t
  unfold loo_mu loo_mu_direct
  rw [hmain]

theorem loo_downdate_correct_witness :
    (1 : Matrix (Fin 2) (Fin 2) ℝ).PosDef ∧
      K_m_idx_inv 1 0 (1 : Matrix (Fin 2) (Fin 2) ℝ)⁻¹ =
        ((1 : Matrix (Fin 2) (Fin 2) ℝ).submatrix (rem_idx 1 0) (rem_idx 1 0))⁻¹ :=
  ⟨Matrix.PosDef.one, (loo_downdate_correct 1 0 1 Matrix.PosDef.one).1⟩

theorem np_cov_eq_sample_cov (N Q : ℕ) (hN : 1 < N) (m : Matrix (Fin N) (Fin Q) ℝ)
    (a b : Fin Q) : np_cov N Q m a b = sample_cov_spec N Q m a b := by
  have hN0 : (N : ℝ) ≠ 0 := Nat.cast_ne_zero.mpr (by omega)
  unfold np_cov sample_cov_spec
  rw [Matrix.of_apply, Matrix.of_apply]
  congr 1
  have hA : ∑ i, m i a = N * col_mean N Q m a := by
    unfold col_mean; field_simp
  have hB : ∑ i, m i b = N * col_mean N Q m b := by
    unfold col_mean; field_simp
  have h1 : ∀ i : Fin N, (m i a - col_mean N Q m a) * (m i b - col_mean N Q m b) =
      m i a * m i b - col_mean N Q m a * m i b - col_mean N Q m b * m i a +
        col_mean N Q m a * col_mean N Q m b := fun i => by ring
  rw [Finset.sum_congr rfl fun i _ => h1 i, Finset.sum_add_distrib,
    Finset.sum_sub_distrib, Finset.sum_sub_distrib, Finset.sum_const,
    Finset.card_univ, Fintype.card_fin, ← Finset.mul_sum, ← Finset.mul_sum,
    hA, hB, nsmul_eq_mul]
  ring

theorem loo_errors_cov_eq (N Q : ℕ) (hN : 1 < N) (mus : Matrix (Fin N) (Fin Q) ℝ) :
    loo_errors_cov N Q mus = jackknife_cov_spec N Q mus := by
  unfold loo_errors_cov np_cov_squeezed
  by_cases hQ : Q = 1
  · subst hQ
    rw [dif_pos rfl]
    ext a b
    have ha : a = ⟨0, Nat.one_pos⟩ := Subsingleton.elim a _
    have hb2 : b = ⟨0, Nat.one_pos⟩ := Subsingleton.elim b _
    subst ha
    subst hb2
    show ((N : ℝ) - 1) / N * np_cov N 1 mus ⟨0, Nat.one_pos⟩ ⟨0, Nat.one_pos⟩ =
      jackknife_cov_spec N 1 mus ⟨0, Nat.one_pos⟩ ⟨0, Nat.one_pos⟩
    rw [np_cov_eq_sample_cov N 1 hN mus]
    rfl
  · rw [dif_neg hQ]
    ext a b
    show ((N : ℝ) - 1) / N * np_cov N Q mus a b = jackknife_cov_spec N Q mus a b
    rw [np_cov_eq_sample_cov N Q hN mus]
    rfl

/-- C2: for more than one training point, _loo_errors collects the N
leave-one-out mean vectors into an N x Q matrix and returns (N - 1) / N times
the sample covariance of that matrix across its N rows; in the Q = 1 case the
scalar that np.cov squeezes out is wrapped back into a 1 x 1 matrix, so the
result is the same Q x Q jackknife covariance matrix in every case. -/
theorem loo_errors_jackknife (n q : ℕ) (hn : 0 < n)
    (K : Matrix (Fin (n + 1)) (Fin (n + 1)) ℝ) (y gp_mean_x : Fin (n + 1) → ℝ)
    (Kt : Fin (n + 1) → Matrix (Fin q) (Fin n) ℝ) (gp_mean_t : Fin q → ℝ) :
    loo_errors n q K y gp_mean_x Kt gp_mean_t =
      jackknife_cov_spec (n + 1) q (loo_mus n q K y gp_mean_x Kt gp_mean_t) := by
  unfold loo_errors
  exact loo_errors_cov_eq (n + 1) q (by omega) _

theorem loo_errors_jackknife_witness :
    (0 : ℕ) < 1 ∧
      loo_errors 1 1 (1 : Matrix (Fin 2) (Fin 2) ℝ) (fun _ => 0) (fun _ => 0)
          (fun _ => 0) (fun _ => 0) =
        jackknife_cov_spec 2 1 (loo_mus 1 1 (1 : Matrix (Fin 2) (Fin 2) ℝ)
          (fun _ => 0) (fun _ => 0) (fun _ => 0) (fun _ => 0)) :=
  ⟨Nat.one_pos, loo_errors_jackknife 1 1 Nat.one_pos 1 (fun _ => 0) (fun _ => 0)
    (fun _ => 0) (fun _ => 0)⟩
